import Mathlib

/-!
Shallow embedding of the tic-tac-toe game logic from `src/app.js`.

Boards are JavaScript arrays of cells; a cell is `'x'`, `'o'`, `null`
or a hole (`undefined`).  We model a board as `List (Option Sym)`:
`none` covers both `null` and out-of-range / hole reads, since the
code only ever tests cells for truthiness and strict equality with
`'x'` / `'o'`.  `getc` and `setc` model JavaScript indexed read and
write (reads past the end give `undefined`, writes past the end pad
with holes).
-/

namespace TicTacToe

/-- The two player symbols, `'x'` and `'o'` in the source. -/
inductive Sym
  | x
  | o
  deriving DecidableEq

/-- A board: a JavaScript array of cells, each `null`/hole (`none`) or a symbol. -/
abbrev Board := List (Option Sym)

/-- JavaScript indexed read `squares[i]`: past-the-end reads give `undefined`,
which the source only ever uses as a falsy value, like `null`; both map to `none`. -/
def getc : Board → Nat → Option Sym
  | [], _ => none
  | c :: _, 0 => c
  | _ :: t, i + 1 => getc t i

/-- JavaScript indexed write `squares[i] = v`: in-range writes replace the cell,
past-the-end writes extend the array with holes up to position `i`. -/
def setc : Board → Nat → Sym → Board
  | [], 0, v => [some v]
  | [], i + 1, v => none :: setc [] i v
  | _ :: t, 0, v => some v :: t
  | c :: t, i + 1, v => c :: setc t i v

/-- The 8 winning triples of `calculateWinner`, in source order:
3 rows, then 3 columns, then 2 diagonals. -/
def lines : List (Nat × Nat × Nat) :=
  [(0, 1, 2), (3, 4, 5), (6, 7, 8),
   (0, 3, 6), (1, 4, 7), (2, 5, 8),
   (0, 4, 8), (2, 4, 6)]

/-- One iteration of the loop body of `calculateWinner`:
`squares[a] && squares[a] === squares[b] && squares[a] === squares[c]`,
returning `squares[a]` when the test passes. -/
def checkLine (squares : Board) (l : Nat × Nat × Nat) : Option Sym :=
  let va := getc squares l.1
  let vb := getc squares l.2.1
  let vc := getc squares l.2.2
  if va.isSome && decide (va = vb) && decide (va = vc) then va else none

/-- Embeds `calculateWinner` from `src/app.js`: scan the 8 lines in order and
return the symbol of the first winning one, else `null`. -/
def calculateWinner (squares : Board) : Option Sym :=
  lines.findSome? (checkLine squares)

/-- One history entry: a board snapshot plus the clicked index that produced it. -/
structure Move where
  squares : Board
  clickIndex : Option Nat
  deriving DecidableEq

/-- The game state held by the `Game` component:
`history`, `stepNumber`, `xIsNext`. -/
structure GameState where
  history : List Move
  stepNumber : Nat
  xIsNext : Bool
  deriving DecidableEq

/-- The single entry of the initial history: the empty 9-cell board, no click index. -/
def initialMove : Move := Move.mk (List.replicate 9 none) none

/-- The initial state set up in the `Game` constructor. -/
def initialState : GameState := GameState.mk [initialMove] 0 true

/-- Placeholder for the out-of-bounds read `history[history.length - 1]`
on an empty history (a state never reached by the program). -/
def emptyMove : Move := Move.mk [] none

/-- The symbol placed for a given turn flag: `xIsNext ? 'x' : 'o'`. -/
def symbolFor (xIsNext : Bool) : Sym := if xIsNext then Sym.x else Sym.o

/-- Embeds `Game.handleClick(i)`: truncate the history to the current step,
no-op if the clicked cell is truthy or the current board already has a
winner, otherwise append the modified board, advance the step and flip
the turn flag. -/
def handleClick (s : GameState) (i : Nat) : GameState :=
  let history := s.history.take (s.stepNumber + 1)
  let current := history.getD (history.length - 1) emptyMove
  let squares := current.squares
  if (getc squares i).isSome || (calculateWinner squares).isSome then s
  else
    GameState.mk
      (history ++ [Move.mk (setc squares i (symbolFor s.xIsNext)) (some i)])
      history.length
      (!s.xIsNext)

/-- Embeds `Game.jumpTo(step)`: set the current step and recompute the turn flag. -/
def jumpTo (s : GameState) (step : Nat) : GameState :=
  GameState.mk s.history step (decide (step % 2 = 0))

/-- The history entry at index `j` (JavaScript read `history[j]`). -/
def entry (s : GameState) (j : Nat) : Move := s.history.getD j emptyMove

/-- Number of cells of the board holding the symbol `s`. -/
def countSym (b : Board) (s : Sym) : Nat := b.countP (fun c => decide (c = some s))

/-! ### Lemmas about cell reads and writes -/

theorem getc_oob (b : Board) (i : Nat) (h : b.length ≤ i) : getc b i = none := by
  induction b generalizing i with
  | nil => rfl
  | cons c t ih =>
    cases i with
    | zero => simp at h
    | succ i => exact ih i (Nat.le_of_succ_le_succ h)

theorem getc_setc (i : Nat) : ∀ (b : Board) (v : Sym) (p : Nat),
    getc (setc b i v) p = if p = i then some v else getc b p := by
  induction i with
  | zero =>
    intro b v p
    cases b <;> cases p <;> simp [setc, getc]
  | succ i ih =>
    intro b v p
    cases b <;> cases p <;> simp [setc, getc, ih]

theorem countSym_setc (i : Nat) : ∀ (b : Board) (v s : Sym), getc b i = none →
    countSym (setc b i v) s = countSym b s + (if v = s then 1 else 0) := by
  induction i with
  | zero =>
    intro b v s h
    cases b with
    | nil => simp [setc, countSym, List.countP_cons]
    | cons c t =>
      have hc : c = none := h
      subst hc
      simp [setc, countSym, List.countP_cons]
  | succ i ih =>
    intro b v s h
    cases b with
    | nil =>
      have := ih [] v s rfl
      simp [setc, countSym, List.countP_cons] at this ⊢
      omega
    | cons c t =>
      have := ih t v s h
      simp [setc, countSym, List.countP_cons] at this ⊢
      omega

theorem getc_mem (b : Board) (i : Nat) (s : Sym) (h : getc b i = some s) :
    some s ∈ b := by
  induction b generalizing i with
  | nil => simp [getc] at h
  | cons c t ih =>
    cases i with
    | zero =>
      have hc : c = some s := h
      subst hc
      exact List.mem_cons_self _ _
    | succ i => exact List.mem_cons_of_mem _ (ih i h)

/-! ### The WinDetector contract as the spec words it -/

/-- The spec's per-triple condition: the three cells all non-empty and
identical; returns the occupying symbol in that case. -/
def specLine (squares : Board) (l : Nat × Nat × Nat) : Option Sym :=
  match getc squares l.1, getc squares l.2.1, getc squares l.2.2 with
  | some a, some b, some c => if a = b ∧ a = c then some a else none
  | _, _, _ => none

/-- The WinDetector contract as stated by the spec: the occupying symbol
of the first of the 8 fixed triples (3 rows, then 3 columns, then 2
diagonals) whose three cells are all non-empty and identical, else no
winner. -/
def winnerSpec (squares : Board) : Option Sym :=
  lines.findSome? (specLine squares)

theorem checkLine_eq_specLine (squares : Board) (l : Nat × Nat × Nat) :
    checkLine squares l = specLine squares l := by
  unfold checkLine specLine
  rcases ha : getc squares l.1 with _ | a <;>
    rcases hb : getc squares l.2.1 with _ | b <;>
      rcases hc : getc squares l.2.2 with _ | c <;>
        simp [ha, hb, hc]

theorem calculateWinner_eq_winnerSpec (squares : Board) :
    calculateWinner squares = winnerSpec squares := by
  unfold calculateWinner winnerSpec
  rw [funext (checkLine_eq_specLine squares)]

/-! ### Characterization of handleClick -/

theorem length_take_of_lt (s : GameState) (h : s.stepNumber < s.history.length) :
    (s.history.take (s.stepNumber + 1)).length = s.stepNumber + 1 := by
  simp only [List.length_take]
  omega

/-- The `current` move read inside `handleClick` is the history entry at
the current step, whenever the current step is in range. -/
theorem handleClick_current (s : GameState) (h : s.stepNumber < s.history.length) :
    (s.history.take (s.stepNumber + 1)).getD
      ((s.history.take (s.stepNumber + 1)).length - 1) emptyMove =
      entry s s.stepNumber := by
  rw [length_take_of_lt s h]
  simp only [Nat.add_sub_cancel]
  rw [List.getD_eq_getD_get?, List.get?_take (Nat.lt_succ_self _)]
  rw [entry, List.getD_eq_getD_get?]

/-- On a click that passes the guard, `handleClick` truncates, appends the
modified board, advances the step and flips the flag. -/
theorem handleClick_success (s : GameState) (i : Nat)
    (h : s.stepNumber < s.history.length)
    (hempty : getc (entry s s.stepNumber).squares i = none)
    (hnowin : calculateWinner (entry s s.stepNumber).squares = none) :
    handleClick s i = GameState.mk
      (s.history.take (s.stepNumber + 1) ++
        [Move.mk (setc (entry s s.stepNumber).squares i (symbolFor s.xIsNext)) (some i)])
      (s.stepNumber + 1) (!s.xIsNext) := by
  have hcur := handleClick_current s h
  unfold handleClick
  simp only []
  rw [hcur, length_take_of_lt s h, hempty, hnowin]
  simp

/-- On a click that fails the guard, `handleClick` returns the state
unchanged. -/
theorem handleClick_noop (s : GameState) (i : Nat)
    (h : s.stepNumber < s.history.length)
    (hguard : (getc (entry s s.stepNumber).squares i).isSome = true ∨
      (calculateWinner (entry s s.stepNumber).squares).isSome = true) :
    handleClick s i = s := by
  unfold handleClick
  simp only [handleClick_current s h]
  rcases hguard with hg | hg <;> simp [hg]

/-- Reading a prefix entry of the truncated-and-extended history gives the
original entry. -/
theorem entry_take_append (hist : List Move) (m : Move) (k j : Nat) (hj : j < k)
    (hk : k ≤ hist.length) :
    (hist.take k ++ [m]).getD j emptyMove = hist.getD j emptyMove := by
  have hlen : (hist.take k).length = k := by
    simp only [List.length_take]
    omega
  rw [List.getD_eq_getD_get?, List.get?_append (by rw [hlen]; exact hj),
    List.get?_take hj, List.getD_eq_getD_get?]

/-- Reading right past a list's end after appending one element gives the
new element. -/
theorem getD_concat_length (l : List Move) (m : Move) :
    (l ++ [m]).getD l.length emptyMove = m := by
  rw [List.getD_eq_getD_get?, List.get?_concat_length]
  rfl

/-- Reading the appended entry of the truncated-and-extended history gives
the new move. -/
theorem entry_take_append_last (hist : List Move) (m : Move) (k : Nat)
    (hk : k ≤ hist.length) :
    (hist.take k ++ [m]).getD k emptyMove = m := by
  have hlen : (hist.take k).length = k := by
    simp only [List.length_take]
    omega
  have h := getD_concat_length (hist.take k) m
  rwa [hlen] at h

/-! ### Reachable states and their invariants -/

/-- States reachable from the initial state by any sequence of board
clicks and of history jumps to an in-range step. -/
inductive Reachable : GameState → Prop
  | init : Reachable initialState
  | click (s : GameState) (i : Nat) : Reachable s → Reachable (handleClick s i)
  | jump (s : GameState) (step : Nat) : Reachable s → step < s.history.length →
      Reachable (jumpTo s step)

/-- The inductive invariant of the game state. -/
structure Inv (s : GameState) : Prop where
  stepLt : s.stepNumber < s.history.length
  turn : s.xIsNext = decide (s.stepNumber % 2 = 0)
  head : s.history.head? = some initialMove
  countx : ∀ j, j < s.history.length → countSym (entry s j).squares Sym.x = (j + 1) / 2
  counto : ∀ j, j < s.history.length → countSym (entry s j).squares Sym.o = j / 2
  mono : ∀ j, j + 1 < s.history.length → ∀ p sym,
    getc (entry s j).squares p = some sym → getc (entry s (j + 1)).squares p = some sym

theorem inv_initialState : Inv initialState := by
  refine ⟨by decide, by decide, rfl, ?_, ?_, ?_⟩
  · intro j hj
    have hj0 : j = 0 := by
      simp [initialState] at hj
      omega
    subst hj0
    decide
  · intro j hj
    have hj0 : j = 0 := by
      simp [initialState] at hj
      omega
    subst hj0
    decide
  · intro j hj
    simp [initialState] at hj

theorem inv_jumpTo (s : GameState) (step : Nat) (hs : Inv s)
    (h : step < s.history.length) : Inv (jumpTo s step) :=
  ⟨h, rfl, hs.head, hs.countx, hs.counto, hs.mono⟩

theorem inv_handleClick (s : GameState) (i : Nat) (hs : Inv s) :
    Inv (handleClick s i) := by
  by_cases hg : (getc (entry s s.stepNumber).squares i).isSome = true ∨
      (calculateWinner (entry s s.stepNumber).squares).isSome = true
  · rw [handleClick_noop s i hs.stepLt hg]
    exact hs
  · push_neg at hg
    have hempty : getc (entry s s.stepNumber).squares i = none := by
      rcases h1 : getc (entry s s.stepNumber).squares i with _ | v
      · rfl
      · exact absurd (by rw [h1]; rfl) hg.1
    have hnowin : calculateWinner (entry s s.stepNumber).squares = none := by
      rcases h2 : calculateWinner (entry s s.stepNumber).squares with _ | v
      · rfl
      · exact absurd (by rw [h2]; rfl) hg.2
    have hsucc := handleClick_success s i hs.stepLt hempty hnowin
    set n := s.stepNumber with hn
    have hlt := hs.stepLt
    rw [hsucc]
    have hentry_old : ∀ j, j ≤ n →
        entry (GameState.mk
          (s.history.take (n + 1) ++
            [Move.mk (setc (entry s n).squares i (symbolFor s.xIsNext)) (some i)])
          (n + 1) (!s.xIsNext)) j = entry s j := by
      intro j hj
      exact entry_take_append s.history _ (n + 1) j (by omega) (by omega)
    have hentry_new :
        entry (GameState.mk
          (s.history.take (n + 1) ++
            [Move.mk (setc (entry s n).squares i (symbolFor s.xIsNext)) (some i)])
          (n + 1) (!s.xIsNext)) (n + 1) =
        Move.mk (setc (entry s n).squares i (symbolFor s.xIsNext)) (some i) :=
      entry_take_append_last s.history _ (n + 1) (by omega)
    have hlen : (s.history.take (n + 1) ++
        [Move.mk (setc (entry s n).squares i (symbolFor s.xIsNext)) (some i)]).length =
        n + 2 := by
      simp [List.length_take]
      omega
    constructor
    · simp [hlen]
    · simp only []
      have := hs.turn
      by_cases hpar : n % 2 = 0
      · rw [this]
        simp [hpar, Nat.succ_mod_two_eq_zero_iff, Nat.succ_mod_two_eq_one_iff]
      · rw [this]
        simp [hpar, Nat.succ_mod_two_eq_zero_iff, Nat.succ_mod_two_eq_one_iff]
        omega
    · simp only [List.head?_append, List.head?_take]
      rw [if_neg (by omega), hs.head]
      rfl
    · intro j hj
      rw [hlen] at hj
      rcases Nat.lt_or_ge j (n + 1) with hjn | hjn
      · rw [hentry_old j (by omega)]
        exact hs.countx j (by omega)
      · have hj1 : j = n + 1 := by omega
        subst hj1
        rw [hentry_new]
        simp only []
        rw [countSym_setc i (entry s n).squares (symbolFor s.xIsNext) Sym.x hempty]
        rw [hs.countx n hlt]
        have := hs.turn
        by_cases hpar : n % 2 = 0
        · rw [this]
          simp [symbolFor, hpar]
          omega
        · rw [this]
          simp [symbolFor, hpar]
          omega
    · intro j hj
      rw [hlen] at hj
      rcases Nat.lt_or_ge j (n + 1) with hjn | hjn
      · rw [hentry_old j (by omega)]
        exact hs.counto j (by omega)
      · have hj1 : j = n + 1 := by omega
        subst hj1
        rw [hentry_new]
        simp only []
        rw [countSym_setc i (entry s n).squares (symbolFor s.xIsNext) Sym.o hempty]
        rw [hs.counto n hlt]
        have := hs.turn
        by_cases hpar : n % 2 = 0
        · rw [this]
          simp [symbolFor, hpar]
          omega
        · rw [this]
          simp [symbolFor, hpar]
          omega
    · intro j hj p sym hp
      rw [hlen] at hj
      rcases Nat.lt_or_ge (j + 1) (n + 1) with hjn | hjn
      · rw [hentry_old j (by omega)] at hp
        rw [hentry_old (j + 1) (by omega)]
        exact hs.mono j (by omega) p sym hp
      · have hj1 : j = n := by omega
        subst hj1
        rw [hentry_old n (by omega)] at hp
        rw [hentry_new]
        simp only []
        rw [getc_setc]
        by_cases hpi : p = i
        · subst hpi
          rw [hp] at hempty
          exact absurd hempty (by simp)
        · rw [if_neg hpi]
          exact hp

theorem reachable_inv (s : GameState) (h : Reachable s) : Inv s := by
  induction h with
  | init => exact inv_initialState
  | click s i _ ih => exact inv_handleClick s i ih
  | jump s step _ hstep ih => exact inv_jumpTo s step ih hstep

/-! ### The Status and Moves components -/

/-- The output of the `Status` component: the status text and the css
effect class applied to it. -/
structure StatusOut where
  text : String
  effect : String
  deriving DecidableEq

/-- The string a symbol concatenates into status text. -/
def symStr : Sym → String
  | Sym.x => "x"
  | Sym.o => "o"

/-- Embeds the `Status` component: compute the winner, derive the effect
class (`bounce` on a win, nothing otherwise) and the status text. -/
def Status (squares : Board) (xIsNext : Bool) : StatusOut :=
  let winner := calculateWinner squares
  let effect := if winner.isSome then "bounce" else ""
  let status := match winner with
    | some w => "Winner is: " ++ symStr w
    | none => "Next player is: " ++ (if xIsNext then "x" else "o")
  StatusOut.mk status effect

/-- One rendered move-list entry: the button label, the highlight part of
its class, and the step its click handler passes to the jump callback. -/
structure MoveEntry where
  desc : String
  btnClass : String
  onClickArg : Nat
  deriving DecidableEq

/-- Placeholder entry for out-of-range reads of the rendered list. -/
def emptyEntry : MoveEntry := MoveEntry.mk "" "" 0

/-- The label of the entry at position `move`: row and column decoded from
the stored click index (`row = index / 3`, `col = index % 3`). -/
def moveDesc (move : Nat) (clickIndex : Option Nat) : String :=
  if move = 0 then "Go to game start"
  else
    "Go to move #" ++ toString move ++ " (row:" ++ toString (clickIndex.getD 0 / 3) ++
      ", col:" ++ toString (clickIndex.getD 0 % 3) ++ ")"

/-- Embeds the `Moves` component: one entry per history entry, in stored
order, each carrying its label, its highlight class (`btn-primary` exactly
on the active step, `btn-secondary` otherwise) and the step its click
handler passes to `jumpTo`. -/
def Moves (history : List Move) (stepNumber : Nat) : List MoveEntry :=
  history.mapIdx (fun move step =>
    MoveEntry.mk (moveDesc move step.clickIndex)
      (if stepNumber = move then "btn-primary" else "btn-secondary") move)

theorem length_Moves (history : List Move) (stepNumber : Nat) :
    (Moves history stepNumber).length = history.length := by
  simp [Moves]

theorem Moves_getD (history : List Move) (stepNumber move : Nat)
    (h : move < history.length) :
    (Moves history stepNumber).getD move emptyEntry =
      MoveEntry.mk (moveDesc move ((history.getD move emptyMove).clickIndex))
        (if stepNumber = move then "btn-primary" else "btn-secondary") move := by
  have hlt : move < (Moves history stepNumber).length := by
    rw [length_Moves]
    exact h
  rw [List.getD_eq_getElem _ _ hlt]
  unfold Moves
  rw [List.getElem_mapIdx]
  rw [List.getD_eq_getElem _ _ h]

/-- Extract the first cell of a winning line from a passing guard. -/
theorem checkLine_some (squares : Board) (l : Nat × Nat × Nat) (w : Sym)
    (h : checkLine squares l = some w) : getc squares l.1 = some w := by
  simp only [checkLine] at h
  split at h
  · exact h
  · exact absurd h (by simp)

/-! ### Demonstration states used by the witnesses -/

/-- Four clicks from the start, then a jump back to step 2: history
length 5, current step 2, an empty cell at index 5. -/
def demoState : GameState :=
  jumpTo (handleClick (handleClick (handleClick (handleClick initialState 0) 1) 2) 4) 2

/-- Five clicks completing the top row for x: the current board has a
winner. -/
def wonState : GameState :=
  handleClick (handleClick (handleClick (handleClick (handleClick initialState 0) 3) 1) 4) 2

/-- One click from the start: history length 2, current step 1. -/
def clickedState : GameState := handleClick initialState 4

/-! ### The claims -/

/-- C1: when the clicked cell of the board at the current step is empty
and that board has no winner, `handleClick` replaces the history by its
prefix 0..currentStep followed by one new entry holding the board with
the clicked cell set to the current player's symbol and the clicked
index, sets the current step to the new last index, and negates the turn
flag; in particular from history length 5 at step 2 a click yields
history length 4, discarding the former steps 3 and 4. -/
theorem C1_handleClick_extends (s : GameState) (i : Nat)
    (hstep : s.stepNumber < s.history.length)
    (hempty : getc (entry s s.stepNumber).squares i = none)
    (hnowin : calculateWinner (entry s s.stepNumber).squares = none) :
    handleClick s i = GameState.mk
      (s.history.take (s.stepNumber + 1) ++
        [Move.mk (setc (entry s s.stepNumber).squares i (symbolFor s.xIsNext)) (some i)])
      (s.stepNumber + 1) (!s.xIsNext) ∧
    (handleClick s i).history.length = s.stepNumber + 2 ∧
    (handleClick s i).stepNumber + 1 = (handleClick s i).history.length := by
  have h := handleClick_success s i hstep hempty hnowin
  refine ⟨h, ?_, ?_⟩
  · rw [h]
    simp [List.length_take]
    omega
  · rw [h]
    simp [List.length_take]
    omega

/-- Witness for C1: from history length 5 jumped to step 2, clicking the
empty cell 5 yields history length 4. -/
theorem C1_witness :
    demoState.history.length = 5 ∧ demoState.stepNumber = 2 ∧
    demoState.stepNumber < demoState.history.length ∧
    getc (entry demoState demoState.stepNumber).squares 5 = none ∧
    calculateWinner (entry demoState demoState.stepNumber).squares = none ∧
    (handleClick demoState 5).history.length = 4 :=
  ⟨by decide, by decide, by decide, by decide, by decide,
    (C1_handleClick_extends demoState 5 (by decide) (by decide) (by decide)).2.1.trans
      (by decide)⟩

/-- C2: a click on a non-empty cell, or on a board that already has a
winner, leaves the whole state unchanged — a silent no-op, not an error —
and once a winner exists no sequence of further clicks changes the state,
hence neither the current step nor the history length. -/
theorem C2_handleClick_silent_noop (s : GameState) (i : Nat)
    (hstep : s.stepNumber < s.history.length)
    (hguard : (getc (entry s s.stepNumber).squares i).isSome = true ∨
      (calculateWinner (entry s s.stepNumber).squares).isSome = true) :
    handleClick s i = s ∧
    (∀ js : List Nat, (calculateWinner (entry s s.stepNumber).squares).isSome = true →
      List.foldl handleClick s js = s) := by
  refine ⟨handleClick_noop s i hstep hguard, ?_⟩
  intro js hwin
  induction js with
  | nil => rfl
  | cons j js ih =>
    rw [List.foldl_cons, handleClick_noop s j hstep (Or.inr hwin)]
    exact ih

/-- Witness for C2: with the top row won by x, a click and a further
click sequence leave the state untouched. -/
theorem C2_witness :
    wonState.stepNumber < wonState.history.length ∧
    (calculateWinner (entry wonState wonState.stepNumber).squares).isSome = true ∧
    handleClick wonState 5 = wonState ∧
    List.foldl handleClick wonState [5, 6, 7, 8] = wonState := by
  have h := C2_handleClick_silent_noop wonState 5 (by decide) (Or.inr (by decide))
  exact ⟨by decide, by decide, h.1, h.2 [5, 6, 7, 8] (by decide)⟩

/-- C3: `calculateWinner` agrees everywhere with the spec's contract —
the occupying symbol of the first of the 8 fixed triples (3 rows, then 3
columns, then 2 diagonals) whose three cells are non-empty and identical,
else no winner — and returns no winner on the fully empty board and on a
non-winning scattered board; being a Lean function of its argument it is
pure. -/
theorem C3_calculateWinner_contract :
    (∀ squares : Board, calculateWinner squares = winnerSpec squares) ∧
    calculateWinner (List.replicate 9 none) = none ∧
    calculateWinner
      [some Sym.x, some Sym.o, some Sym.x, some Sym.o, some Sym.x,
        some Sym.o, some Sym.o, some Sym.x, none] = none :=
  ⟨calculateWinner_eq_winnerSpec, by decide, by decide⟩

/-- C4: in every state reachable from the initial state by clicks and
in-range jumps, the turn flag equals the evenness of the current step,
and the first history entry is still the initial empty-board entry. -/
theorem C4_turn_parity_and_head (s : GameState) (h : Reachable s) :
    s.xIsNext = decide (s.stepNumber % 2 = 0) ∧
    s.history.head? = some initialMove :=
  ⟨(reachable_inv s h).turn, (reachable_inv s h).head⟩

/-- Witness for C4: one click then a jump to step 1. -/
theorem C4_witness :
    (jumpTo (handleClick initialState 0) 1).xIsNext =
      decide ((jumpTo (handleClick initialState 0) 1).stepNumber % 2 = 0) ∧
    (jumpTo (handleClick initialState 0) 1).history.head? = some initialMove :=
  C4_turn_parity_and_head _
    (Reachable.jump _ 1 (Reachable.click _ 0 Reachable.init) (by decide))

/-- C5: in every reachable state every stored board has an x-count
exceeding its o-count by 0 or 1, a cell that is non-empty in a history
entry holds the same symbol in the next entry, and a click that changes
the state advances the step by one and places x when the current step is
even, o when it is odd — so successive placed symbols strictly
alternate x, o, x, o, …. -/
theorem C5_alternation_and_no_overwrite (s : GameState) (h : Reachable s) :
    (∀ j, j < s.history.length →
      countSym (entry s j).squares Sym.o ≤ countSym (entry s j).squares Sym.x ∧
      countSym (entry s j).squares Sym.x ≤ countSym (entry s j).squares Sym.o + 1) ∧
    (∀ j, j + 1 < s.history.length → ∀ p sym,
      getc (entry s j).squares p = some sym →
        getc (entry s (j + 1)).squares p = some sym) ∧
    (∀ i, handleClick s i ≠ s →
      (handleClick s i).stepNumber = s.stepNumber + 1 ∧
      getc (entry (handleClick s i) (s.stepNumber + 1)).squares i =
        some (if s.stepNumber % 2 = 0 then Sym.x else Sym.o)) := by
  have hs := reachable_inv s h
  refine ⟨?_, hs.mono, ?_⟩
  · intro j hj
    have hx := hs.countx j hj
    have ho := hs.counto j hj
    omega
  · intro i hne
    by_cases hg : (getc (entry s s.stepNumber).squares i).isSome = true ∨
        (calculateWinner (entry s s.stepNumber).squares).isSome = true
    · exact absurd (handleClick_noop s i hs.stepLt hg) hne
    · push_neg at hg
      have hempty : getc (entry s s.stepNumber).squares i = none := by
        rcases h1 : getc (entry s s.stepNumber).squares i with _ | v
        · rfl
        · exact absurd (by rw [h1]; rfl) hg.1
      have hnowin : calculateWinner (entry s s.stepNumber).squares = none := by
        rcases h2 : calculateWinner (entry s s.stepNumber).squares with _ | v
        · rfl
        · exact absurd (by rw [h2]; rfl) hg.2
      have hsucc := handleClick_success s i hs.stepLt hempty hnowin
      have hnew := entry_take_append_last s.history
        (Move.mk (setc (entry s s.stepNumber).squares i (symbolFor s.xIsNext)) (some i))
        (s.stepNumber + 1) (by have := hs.stepLt; omega)
      constructor
      · rw [hsucc]
      · rw [hsucc]
        simp only [entry] at hnew ⊢
        rw [hnew]
        simp only []
        rw [getc_setc, if_pos rfl, hs.turn]
        by_cases hpar : s.stepNumber % 2 = 0
        · simp [symbolFor, hpar]
        · simp [symbolFor, hpar]

/-- Witness for C5: the state after one click at cell 4. -/
theorem C5_witness :
    (countSym (entry clickedState 1).squares Sym.o ≤
        countSym (entry clickedState 1).squares Sym.x ∧
      countSym (entry clickedState 1).squares Sym.x ≤
        countSym (entry clickedState 1).squares Sym.o + 1) ∧
    ((handleClick clickedState 0).stepNumber = clickedState.stepNumber + 1 ∧
      getc (entry (handleClick clickedState 0) (clickedState.stepNumber + 1)).squares 0 =
        some (if clickedState.stepNumber % 2 = 0 then Sym.x else Sym.o)) := by
  have h := C5_alternation_and_no_overwrite clickedState
    (Reachable.click _ 4 Reachable.init)
  exact ⟨h.1 1 (by decide), h.2.2 0 (by decide)⟩

/-- C6: for an in-range step, `jumpTo` sets the current step, recomputes
the turn flag as the step's evenness, and leaves the history — the list
and therefore every entry in it — exactly as it was. -/
theorem C6_jumpTo_frame (s : GameState) (step : Nat)
    (h : step < s.history.length) :
    (jumpTo s step).history = s.history ∧
    (jumpTo s step).stepNumber = step ∧
    (jumpTo s step).xIsNext = decide (step % 2 = 0) :=
  ⟨rfl, rfl, rfl⟩

/-- Witness for C6: jumping back to step 1 in a two-entry history. -/
theorem C6_witness :
    (1 : Nat) < clickedState.history.length ∧
    (jumpTo clickedState 1).history = clickedState.history ∧
    (jumpTo clickedState 1).stepNumber = 1 ∧
    (jumpTo clickedState 1).xIsNext = decide ((1 : Nat) % 2 = 0) :=
  ⟨by decide, (C6_jumpTo_frame clickedState 1 (by decide)).1,
    (C6_jumpTo_frame clickedState 1 (by decide)).2.1,
    (C6_jumpTo_frame clickedState 1 (by decide)).2.2⟩

/-- The Status text and effect on a winnerless board. -/
theorem Status_of_none (squares : Board) (xIsNext : Bool)
    (hw : calculateWinner squares = none) :
    Status squares xIsNext =
      StatusOut.mk ("Next player is: " ++ (if xIsNext then "x" else "o")) "" := by
  simp only [Status, hw, Option.isSome_none, Bool.false_eq_true, if_false]

/-- The Status text and effect on a won board. -/
theorem Status_of_some (squares : Board) (xIsNext : Bool) (w : Sym)
    (hw : calculateWinner squares = some w) :
    Status squares xIsNext = StatusOut.mk ("Winner is: " ++ symStr w) "bounce" := by
  simp only [Status, hw, Option.isSome_some, if_true]

/-- C7: `Status` shows the winner message naming the detected symbol, and
applies the bounce effect, exactly when `calculateWinner` reports a
winner; in every other case — a full drawn board included — it shows the
next-player text from the turn flag, and no draw message is ever
produced. -/
theorem C7_status_contract (squares : Board) (xIsNext : Bool) :
    ((Status squares xIsNext).effect = "bounce" ↔
      (calculateWinner squares).isSome = true) ∧
    (∀ w, calculateWinner squares = some w →
      Status squares xIsNext = StatusOut.mk ("Winner is: " ++ symStr w) "bounce") ∧
    (calculateWinner squares = none →
      Status squares xIsNext =
        StatusOut.mk ("Next player is: " ++ (if xIsNext then "x" else "o")) "") := by
  rcases hw : calculateWinner squares with _ | w
  · have h := Status_of_none squares xIsNext hw
    refine ⟨?_, ?_, fun _ => h⟩
    · rw [h]
      simp only [Option.isSome_none, Bool.false_eq_true, iff_false]
      intro hc
      exact absurd hc (by decide)
    · intro w hww
      exact absurd hww (by simp)
  · have h := Status_of_some squares xIsNext w hw
    refine ⟨?_, ?_, ?_⟩
    · rw [h]
      simp
    · intro w2 hww
      rw [← Option.some.inj hww]
      exact h
    · intro hnone
      exact absurd hnone (by simp)

/-- Witness for C7: the won top-row board and a full drawn board. -/
theorem C7_witness :
    Status [some Sym.x, some Sym.x, some Sym.x, some Sym.o, some Sym.o,
        none, none, none, none] false =
      StatusOut.mk ("Winner is: " ++ symStr Sym.x) "bounce" ∧
    Status [some Sym.x, some Sym.o, some Sym.x, some Sym.o, some Sym.x,
        some Sym.o, some Sym.o, some Sym.x, some Sym.o] true =
      StatusOut.mk ("Next player is: " ++ "x") "" :=
  ⟨(C7_status_contract _ false).2.1 Sym.x (by decide),
    ((C7_status_contract _ true).2.2 (by decide)).trans (by decide)⟩

/-- C8: the moves list has one entry per history entry, in stored
ascending order; entry 0 is labeled with the game-start text; an entry at
position `move > 0` is labeled with the move number and the position
decoded from the stored click index as row = index / 3, col = index % 3;
exactly the entry at the active step carries the highlight class; and an
entry's click handler passes that entry's own position to the jump
callback. -/
theorem C8_moves_contract (history : List Move) (stepNumber move : Nat)
    (hm : move < history.length) :
    (Moves history stepNumber).length = history.length ∧
    ((Moves history stepNumber).getD move emptyEntry).onClickArg = move ∧
    (((Moves history stepNumber).getD move emptyEntry).btnClass = "btn-primary" ↔
      stepNumber = move) ∧
    (move = 0 →
      ((Moves history stepNumber).getD move emptyEntry).desc = "Go to game start") ∧
    (∀ i, move ≠ 0 → (history.getD move emptyMove).clickIndex = some i →
      ((Moves history stepNumber).getD move emptyEntry).desc =
        "Go to move #" ++ toString move ++ " (row:" ++ toString (i / 3) ++
          ", col:" ++ toString (i % 3) ++ ")") := by
  have hg := Moves_getD history stepNumber move hm
  refine ⟨length_Moves history stepNumber, ?_, ?_, ?_, ?_⟩
  · rw [hg]
  · rw [hg]
    by_cases hsm : stepNumber = move
    · simp [hsm]
    · simp only [if_neg hsm]
      constructor
      · intro hc
        exact absurd hc (by decide)
      · intro hc
        exact absurd hc hsm
  · intro h0
    rw [hg]
    simp [moveDesc, h0]
  · intro i h0 hci
    rw [hg]
    simp only [moveDesc, if_neg h0, hci, Option.getD_some]

/-- A two-entry history whose second move clicked cell 4. -/
def demoHistory : List Move :=
  [initialMove, Move.mk (setc (List.replicate 9 none) 4 Sym.x) (some 4)]

/-- Witness for C8: click index 4 decodes to row 1, col 1, the active
entry 1 is highlighted and entry 0 carries the game-start label. -/
theorem C8_witness :
    (1 : Nat) < demoHistory.length ∧
    (Moves demoHistory 1).length = 2 ∧
    ((Moves demoHistory 1).getD 1 emptyEntry).onClickArg = 1 ∧
    ((Moves demoHistory 1).getD 1 emptyEntry).btnClass = "btn-primary" ∧
    ((Moves demoHistory 1).getD 0 emptyEntry).desc = "Go to game start" ∧
    ((Moves demoHistory 1).getD 1 emptyEntry).desc = "Go to move #1 (row:1, col:1)" := by
  have h1 := C8_moves_contract demoHistory 1 1 (by decide)
  have h0 := C8_moves_contract demoHistory 1 0 (by decide)
  exact ⟨by decide, h1.1.trans (by decide), h1.2.1, h1.2.2.1.mpr rfl,
    h0.2.2.2.1 rfl, (h1.2.2.2.2 4 (by decide) (by decide)).trans (by decide)⟩

/-- C9: `handleClick` has no range check on the cell index: clicking cell
9 in the initial state passes both guards and, far from being a no-op or
an error, appends a 10-cell board with position 9 set to a symbol,
advances the current step and flips the turn flag. -/
theorem C9_no_range_check :
    handleClick initialState 9 ≠ initialState ∧
    (handleClick initialState 9).history.length = 2 ∧
    (handleClick initialState 9).stepNumber = 1 ∧
    (handleClick initialState 9).xIsNext = false ∧
    (entry (handleClick initialState 9) 1).squares.length = 10 ∧
    getc (entry (handleClick initialState 9) 1).squares 9 = some Sym.x := by
  decide

/-- C10: reads past the end of the board behave as empty cells, so
`calculateWinner` is total over input arrays of every length — including
the empty array and arrays shorter than 9 — and always returns either a
symbol actually stored in the input or no winner. -/
theorem C10_calculateWinner_total (squares : Board) :
    (∀ i, squares.length ≤ i → getc squares i = none) ∧
    (calculateWinner squares = none ∨
      ∃ s, calculateWinner squares = some s ∧ some s ∈ squares) ∧
    calculateWinner ([] : Board) = none ∧
    calculateWinner [some Sym.x, some Sym.x] = none := by
  refine ⟨fun i hi => getc_oob squares i hi, ?_, by decide, by decide⟩
  rcases hw : calculateWinner squares with _ | w
  · exact Or.inl rfl
  · right
    refine ⟨w, rfl, ?_⟩
    unfold calculateWinner at hw
    obtain ⟨l, _, hl⟩ := List.exists_of_findSome?_eq_some hw
    exact getc_mem squares l.1 w (checkLine_some squares l w hl)

/-- Witness for C10: a one-cell board read far out of range. -/
theorem C10_witness :
    getc [some Sym.o] 5 = none ∧
    (calculateWinner [some Sym.o] = none ∨
      ∃ s, calculateWinner [some Sym.o] = some s ∧ some s ∈ [some Sym.o]) :=
  have h := C10_calculateWinner_total [some Sym.o]
  ⟨h.1 5 (by decide), h.2.1⟩

end TicTacToe
